import Mathlib

/-!
Verification development for the webmux HTTP request multiplexer.

Go strings are modelled as lists of characters (`Str`); splitting on the byte
value of the slash is the same as splitting on the slash character, because in
UTF-8 the slash byte can only occur as the slash character itself.  Go maps
with string keys are modelled as association lists with Go's read/overwrite
semantics.  Go panics are modelled with `Except`: a registration call that
panics is an `Except.error` carrying the panic message.  Handler values are
opaque interface values in Go; they are modelled by natural-number handler
identifiers.  Loops that repeatedly shift a segment off the front of the path
are modelled with an explicit iteration bound equal to the path length; since
every iteration strictly shortens the path, the bound is never reached (this
is proved where needed).
-/

/-- Go strings, as lists of characters. -/
abbrev Str := List Char

/-- Handler values are opaque in the multiplexer; an identifier suffices. -/
abbrev Handler := Nat

/-- Read from a Go map modelled as an association list. -/
def mapGet {α : Type} (m : List (Str × α)) (k : Str) : Option α :=
  match m with
  | [] => none
  | (k2, v) :: rest => if k2 = k then some v else mapGet rest k

/-- Write to a Go map modelled as an association list: overwrite the binding
for the key if present, otherwise append it. -/
def mapSet {α : Type} (m : List (Str × α)) (k : Str) (v : α) : List (Str × α) :=
  match m with
  | [] => [(k, v)]
  | (k2, v2) :: rest => if k2 = k then (k, v) :: rest else (k2, v2) :: mapSet rest k v

/-- The HTTP method constant "GET". -/
def MethodGet : Str := "GET".toList

/-- The HTTP method constant "HEAD". -/
def MethodHead : Str := "HEAD".toList

/-- The HTTP method constant "POST". -/
def MethodPost : Str := "POST".toList

/-- The HTTP method constant "OPTIONS". -/
def MethodOptions : Str := "OPTIONS".toList

/-- MethodSet.Add from methodset.go: append the method if it is absent. -/
def addMethod (m : List Str) (method : Str) : List Str :=
  if method ∈ m then m else m ++ [method]

/-- Methods from methodset.go: combine methods into a set, dropping
duplicates while preserving first-occurrence order. -/
def Methods (methods : List Str) : List Str :=
  methods.foldl (fun s m => if m ∈ s then s else s ++ [m]) []

/-- MethodSet.String from methodset.go: join the methods with ", ". -/
def renderMethods (m : List Str) : Str :=
  List.intercalate (", ".toList) m

/-- shiftPath from path.go: shift the next segment off the front of the path,
returning the segment and the remaining path.  The Go code indexes the first
slash in p[1:]; an empty argument would panic in Go and never occurs at a
call site (both loops stop on the empty path). -/
def shiftPath (p : Str) : Str × Str :=
  match p with
  | [] => ([], [])
  | _ :: rest =>
    match rest.findIdx? (fun c => c == '/') with
    | none => (rest, [])
    | some i => (rest.take i, rest.drop i)

/-- cleanPath from path.go: the empty path becomes "/", a path lacking a
leading slash gains one, and any other path is returned unchanged. -/
def cleanPath (p : Str) : Str :=
  match p with
  | [] => ['/']
  | c :: cs => if c = '/' then c :: cs else '/' :: c :: cs

/-- muxEntry from mux.go: the leaf record of the routing tree. -/
structure MuxEntry where
  pattern : Str
  params : List Str
  handlers : List (Str × Handler)
  methods : List Str
deriving DecidableEq, Repr

/-- node from mux.go: a routing-tree node, children keyed by path segment. -/
inductive Node where
  | mk (children : List (Str × Node)) (entry : Option MuxEntry)

/-- The children map of a node. -/
def Node.children : Node → List (Str × Node)
  | .mk c _ => c

/-- The optional entry of a node. -/
def Node.entry : Node → Option MuxEntry
  | .mk _ e => e

/-- The empty routing tree, as allocated by NewMux. -/
def emptyNode : Node := Node.mk [] none

/-- A segment starting with a colon or an asterisk is a placeholder
(mux.go tests head[0] after checking the segment is nonempty). -/
def isPlaceholder (seg : Str) : Bool :=
  match seg with
  | [] => false
  | a :: _ => a = ':' || a = '*'

/-- The tree key a pattern segment is stored under: placeholders collapse to
the single wildcard key, everything else is kept verbatim. -/
def keyOf (seg : Str) : Str :=
  if isPlaceholder seg then ['*'] else seg

def errMultipleRegistrations : String := "web: multiple registrations"

def errEmptyMethodSet : String := "webmux: empty method set"

def errInvalidPattern : String := "webmux: invalid pattern"

def errNilHandler : String := "webmux: nil handler"

def errFuelExhausted : String := "webmux: loop bound reached"

/-- muxEntry.setHandler from mux.go: panic if the method already has a
handler; otherwise bind it, add the method to the cached method set, and add
HEAD whenever GET is bound and HEAD is not yet in the set. -/
def setHandler (e : MuxEntry) (method : Str) (handler : Handler) : Except String MuxEntry :=
  match mapGet e.handlers method with
  | some _ => Except.error errMultipleRegistrations
  | none =>
    let handlers := mapSet e.handlers method handler
    let methods := addMethod e.methods method
    let methods := if method = MethodGet ∧ MethodHead ∉ methods then addMethod methods MethodHead else methods
    Except.ok { e with handlers := handlers, methods := methods }

/-- The loop at the end of HandleMethods: bind the handler for every method
in turn, propagating the first panic. -/
def setHandlers (e : MuxEntry) (methods : List Str) (handler : Handler) : Except String MuxEntry :=
  match methods with
  | [] => Except.ok e
  | m :: rest =>
    match setHandler e m handler with
    | Except.error msg => Except.error msg
    | Except.ok e2 => setHandlers e2 rest handler

/-- The registration walk of HandleMethods from mux.go: follow the pattern
segment by segment, collapsing placeholder segments to the wildcard key while
recording their names, creating missing children; at the terminal node reuse
or lazily create the entry (with the raw pattern text, the recorded parameter
names, and an initial method set of OPTIONS) and bind the handler for every
method.  The first argument bounds the iteration count; callers pass the path
length, which always suffices because every shift strictly shortens the
path. -/
def registerLoop : Nat → Node → Str → List Str → Str → List Str → Handler → Except String Node
  | _, current, [], params, pattern, methods, handler =>
    let entry := match current.entry with
      | some e => e
      | none => { pattern := pattern, params := params, handlers := [], methods := Methods [MethodOptions] }
    match setHandlers entry methods handler with
    | Except.error msg => Except.error msg
    | Except.ok e2 => Except.ok (Node.mk current.children (some e2))
  | 0, _, _ :: _, _, _, _, _ => Except.error errFuelExhausted
  | k + 1, current, c :: cs, params, pattern, methods, handler =>
    let s := shiftPath (c :: cs)
    let params2 := if isPlaceholder s.1 then params ++ [s.1.tail] else params
    let head := keyOf s.1
    let next := match mapGet current.children head with
      | some n => n
      | none => Node.mk [] none
    match registerLoop k next s.2 params2 pattern methods handler with
    | Except.error msg => Except.error msg
    | Except.ok next2 => Except.ok (Node.mk (mapSet current.children head next2) current.entry)

/-- HandleMethods from mux.go: validate the arguments (empty method set,
empty pattern and nil handler panic), then run the registration walk on the
cleaned pattern. -/
def HandleMethods (mux : Node) (methods : List Str) (pattern : Str) (handler : Option Handler) : Except String Node :=
  if methods.length = 0 then Except.error errEmptyMethodSet
  else if pattern = [] then Except.error errInvalidPattern
  else
    match handler with
    | none => Except.error errNilHandler
    | some h =>
      let path := cleanPath pattern
      registerLoop path.length mux path [] pattern methods h

/-- The lookup walk from mux.go: shift segments off the path; prefer the
child stored under the exact segment text, otherwise fall back to the
wildcard child and capture the segment text; remember the entry of every
entry-bearing node entered; when the path is exhausted return the last entry
remembered together with the captured values, or no match if none was seen
or the walk got stuck.  The first argument bounds the iteration count as in
`registerLoop`. -/
def lookupLoop : Nat → Node → Str → List Str → Option MuxEntry → Option (MuxEntry × List Str)
  | _, _, [], values, entry =>
    (match entry with
      | none => none
      | some e => some (e, values))
  | 0, _, _ :: _, _, _ => none
  | k + 1, current, c :: cs, values, entry =>
    let s := shiftPath (c :: cs)
    match mapGet current.children s.1 with
    | some next =>
      lookupLoop k next s.2 values
        (match next.entry with
          | some e => some e
          | none => entry)
    | none =>
      match mapGet current.children ['*'] with
      | some next =>
        lookupLoop k next s.2 (values ++ [s.1])
          (match next.entry with
            | some e => some e
            | none => entry)
      | none => none

/-- ServeMux.lookup from mux.go, started like ServeMux.Lookup on a fresh
match value: clean the request path and run the walk from the root. -/
def lookup (mux : Node) (rawPath : Str) : Option (MuxEntry × List Str) :=
  let path := cleanPath rawPath
  lookupLoop path.length mux path [] none

/-- MuxMatch.Param from mux.go scans the parameter names for the first
occurrence of the requested name. -/
def findParamIdx (params : List Str) (name : Str) : Option Nat :=
  params.findIdx? (fun k => k == name)

/-- MuxMatch.Param from mux.go: if the name occurs at position i in the
entry's parameter names, Go reads values[i] without a bounds check; a `none`
result models the out-of-range access (a Go runtime panic).  An absent name
returns the empty string. -/
def Param (e : MuxEntry) (values : List Str) (name : Str) : Option Str :=
  match findParamIdx e.params name with
  | some i => values.get? i
  | none => some []

/-- The observable result of dispatching one request through
ServeMux.ServeHTTP with the default StatusErrorHandler: either a handler is
invoked (with the match in its request context), or a status response is
written, optionally with an Allow header. -/
inductive HttpOutcome where
  | handler (h : Handler) (e : MuxEntry) (values : List Str)
  | status (code : Nat) (allow : Option Str)
deriving DecidableEq, Repr

/-- ServeMux.ServeHTTPErr composed with ServeMux.ServeHTTP and the default
StatusErrorHandler, from mux.go and errorhandler.go: look the path up; on no
match return ErrMuxNotFound, which the error handler maps to 404 because the
request context carries no MuxMatch.  On a match, resolve the handler: the
exact method first, then GET when the method is HEAD; if still absent and the
method is OPTIONS, write 204 with the Allow header; otherwise return
ErrMuxNotFound — and since ServeHTTPErr attaches the match to the request
context only on the handler-invocation path, the error handler again finds no
MuxMatch in the original request's context and writes 404 without an Allow
header. -/
def serveHTTP (mux : Node) (method : Str) (path : Str) : HttpOutcome :=
  match lookup mux path with
  | none => HttpOutcome.status 404 none
  | some (e, values) =>
    let h := mapGet e.handlers method
    let h2 := match h with
      | some x => some x
      | none => if method = MethodHead then mapGet e.handlers MethodGet else none
    match h2 with
    | some x => HttpOutcome.handler x e values
    | none =>
      if method = MethodOptions then
        HttpOutcome.status 204 (some (renderMethods e.methods))
      else
        HttpOutcome.status 404 none

/-- The sequence of segments shiftPath produces from a path, with the same
iteration bound as the loops that consume it. -/
def segsLoop : Nat → Str → List Str
  | _, [] => []
  | 0, _ :: _ => []
  | k + 1, c :: cs =>
    let s := shiftPath (c :: cs)
    s.1 :: segsLoop k s.2

/-- The segments of a path. -/
def segsOf (p : Str) : List Str :=
  segsLoop p.length p

/-- The tree keys a pattern's segments are stored under. -/
def keysOf (p : Str) : List Str :=
  (segsOf p).map keyOf

/-- The node reached from n by following the given child keys. -/
def nodeAt (n : Node) : List Str → Option Node
  | [] => some n
  | k :: ks =>
    match mapGet n.children k with
    | some c => nodeAt c ks
    | none => none

/-- The entry at the node reached by the given child keys, if any. -/
def entryAt (n : Node) (ks : List Str) : Option MuxEntry :=
  match nodeAt n ks with
  | some m => m.entry
  | none => none

/-- The handlers already bound on the entry a path leads to ([] when the
node or its entry does not exist). -/
def pathHandlers (n : Node) (p : Str) : List (Str × Handler) :=
  match nodeAt n (keysOf p) with
  | some m =>
    match m.entry with
    | some e => e.handlers
    | none => []
  | none => []

/-- The placeholder names of a pattern's path, in order of appearance. -/
def collectParams (p : Str) : List Str :=
  (segsOf p).filterMap (fun seg => if isPlaceholder seg then some seg.tail else none)

/-- Whether a registration call succeeded (a Go call that did not panic). -/
def isOk {α : Type} (r : Except String α) : Bool :=
  match r with
  | Except.ok _ => true
  | Except.error _ => false

/-- The lookup walk as the specification describes it, over the pre-computed
segment sequence: at each segment prefer the child keyed by the exact segment
text; otherwise fall back to the wildcard child, appending the segment text
to the captured values; every entry-bearing node entered overwrites the
current best entry; when the segments are exhausted, return the best entry
with the captured values, or no match if there is none. -/
def lookupSpec : Node → List Str → List Str → Option MuxEntry → Option (MuxEntry × List Str)
  | _, [], values, best =>
    (match best with
      | none => none
      | some e => some (e, values))
  | n, seg :: rest, values, best =>
    match mapGet n.children seg with
    | some next =>
      lookupSpec next rest values
        (match next.entry with
          | some e => some e
          | none => best)
    | none =>
      match mapGet n.children ['*'] with
      | some next =>
        lookupSpec next rest (values ++ [seg])
          (match next.entry with
            | some e => some e
            | none => best)
      | none => none

/-- Register a route, keeping the old tree on a panic (used to build the
concrete example trees; every example registration in fact succeeds). -/
def regOr (t : Node) (methods : List Str) (pattern : String) (h : Handler) : Node :=
  match HandleMethods t methods pattern.toList (some h) with
  | Except.ok t2 => t2
  | Except.error _ => t

/-- Tree with /users/new and /users/:id registered for GET. -/
def tUsersNewId : Node :=
  regOr (regOr emptyNode [MethodGet] "/users/new" 1) [MethodGet] "/users/:id" 2

/-- Tree with /files/*path registered for GET. -/
def tFiles : Node :=
  regOr emptyNode [MethodGet] "/files/*path" 1

/-- Tree with /home registered for GET. -/
def tHome : Node :=
  regOr emptyNode [MethodGet] "/home" 1

/-- Tree with /users registered for GET (handler 7). -/
def tUsers : Node :=
  regOr emptyNode [MethodGet] "/users" 7

/-- Tree with /users/:user/images/*img registered for GET. -/
def tImg : Node :=
  regOr emptyNode [MethodGet] "/users/:user/images/*img" 1

/-- Tree with /users/:id registered for GET and then /users/:name for POST. -/
def tShare : Node :=
  regOr (regOr emptyNode [MethodGet] "/users/:id" 1) [MethodPost] "/users/:name" 2

/-- Tree with /users/:id registered for GET. -/
def tParam : Node :=
  regOr emptyNode [MethodGet] "/users/:id" 1

/-- The entry produced by registering GET /users with handler 7. -/
def eUsers : MuxEntry :=
  { pattern := "/users".toList
  , params := []
  , handlers := [(MethodGet, 7)]
  , methods := [MethodOptions, MethodGet, MethodHead] }

/-- The entry produced by registering GET /users/:id with handler 1. -/
def eParam : MuxEntry :=
  { pattern := "/users/:id".toList
  , params := ["id".toList]
  , handlers := [(MethodGet, 1)]
  , methods := [MethodOptions, MethodGet, MethodHead] }

theorem shiftPath_snd_le (c : Char) (rest : Str) :
    (shiftPath (c :: rest)).2.length ≤ rest.length := by
  cases h : rest.findIdx? (fun ch => ch == '/') with
  | none => simp [shiftPath, h]
  | some i => simp [shiftPath, h, List.length_drop]

theorem segsLoop_congr : ∀ (k j : Nat) (p : Str), p.length ≤ k → p.length ≤ j →
    segsLoop k p = segsLoop j p := by
  intro k
  induction k with
  | zero =>
    intro j p hk hj
    have hp : p = [] := List.length_eq_zero.mp (Nat.le_zero.mp hk)
    subst hp
    cases j <;> simp [segsLoop]
  | succ k ih =>
    intro j p hk hj
    cases p with
    | nil => cases j <;> simp [segsLoop]
    | cons c cs =>
      cases j with
      | zero => simp at hj
      | succ j2 =>
        simp only [segsLoop]
        have hlen := shiftPath_snd_le c cs
        simp only [List.length_cons] at hk hj
        congr 1
        exact ih j2 _ (by omega) (by omega)

theorem segsOf_nil : segsOf [] = [] := rfl

theorem segsOf_cons (c : Char) (cs : Str) :
    segsOf (c :: cs) = (shiftPath (c :: cs)).1 :: segsOf (shiftPath (c :: cs)).2 := by
  show segsLoop (cs.length + 1) (c :: cs) = _
  simp only [segsLoop]
  congr 1
  exact segsLoop_congr _ _ _ (shiftPath_snd_le c cs) (le_refl _)

theorem lookupLoop_eq_spec : ∀ (k : Nat) (p : Str), p.length ≤ k →
    ∀ (n : Node) (values : List Str) (entry : Option MuxEntry),
    lookupLoop k n p values entry = lookupSpec n (segsOf p) values entry := by
  intro k
  induction k with
  | zero =>
    intro p hk n values entry
    have hp : p = [] := List.length_eq_zero.mp (Nat.le_zero.mp hk)
    subst hp
    simp [lookupLoop, segsOf, segsLoop, lookupSpec]
  | succ k ih =>
    intro p hk n values entry
    cases p with
    | nil => simp [lookupLoop, segsOf, segsLoop, lookupSpec]
    | cons c cs =>
      rw [segsOf_cons]
      simp only [lookupLoop, lookupSpec]
      have hlen : (shiftPath (c :: cs)).2.length ≤ k := by
        have := shiftPath_snd_le c cs
        simp only [List.length_cons] at hk
        omega
      cases hch : mapGet n.children (shiftPath (c :: cs)).1 with
      | some next => simp [hch, ih _ hlen]
      | none =>
        cases hw : mapGet n.children (['*'] : Str) with
        | some next => simp [hch, hw, ih _ hlen]
        | none => simp [hch, hw]

/-- C1: lookup walks the cleaned path segment by segment from the root,
taking the child keyed by the exact segment text when it exists and otherwise
the wildcard child (capturing the segment text), remembering the entry of the
deepest entry-bearing node passed, and returns that entry with the captured
values once every segment is consumed (no match when the walk gets stuck or
no entry was passed); with /users/new and /users/:id registered, /users/new
resolves to the /users/new entry and /users/1 to the /users/:id entry. -/
theorem c1_lookup_walk :
    (∀ (mux : Node) (path : Str),
        lookup mux path = lookupSpec mux (segsOf (cleanPath path)) [] none) ∧
    (lookup tUsersNewId ("/users/new".toList)).map (fun r => (r.1.pattern, r.2)) =
      some ("/users/new".toList, []) ∧
    (lookup tUsersNewId ("/users/1".toList)).map (fun r => (r.1.pattern, r.2)) =
      some ("/users/:id".toList, ["1".toList]) := by
  refine ⟨fun mux path => ?_, by decide, by decide⟩
  exact lookupLoop_eq_spec _ _ (le_refl _) _ _ _

theorem c1_lookup_walk_witness :
    lookup tUsersNewId ("/users/new".toList) =
      lookupSpec tUsersNewId (segsOf (cleanPath ("/users/new".toList))) [] none :=
  c1_lookup_walk.1 tUsersNewId ("/users/new".toList)

/-- C2: evaluation of the code at the claim's inputs.  With /files/*path
registered, looking up /files/a/b yields no match (the wildcard node has no
children, so the walk fails on the second remaining segment), while looking
up /files/ matches the wildcard entry capturing the empty trailing segment —
the opposite of the claimed greedy-wildcard behavior on both inputs. -/
theorem c2_greedy_eval :
    lookup tFiles ("/files/a/b".toList) = none ∧
    (lookup tFiles ("/files/".toList)).map (fun r => (r.1.pattern, r.2)) =
      some ("/files/*path".toList, [([] : Str)]) :=
  ⟨by decide, by decide⟩

/-- C3: evaluation of the code at the claim's inputs.  With /home registered,
looking up /home resolves to the /home entry, but looking up /home/ yields no
match: the trailing slash produces an empty final segment for which the /home
node has neither an exact child nor a wildcard child. -/
theorem c3_trailing_slash_eval :
    (lookup tHome ("/home".toList)).map (fun r => (r.1.pattern, r.2)) =
      some ("/home".toList, []) ∧
    lookup tHome ("/home/".toList) = none :=
  ⟨by decide, by decide⟩

/-- C4: evaluation of the code at the claim's inputs.  With only GET /users
registered, a POST /users request produces exactly the same outcome as a
request for a path that matches nothing: ErrMuxNotFound is returned without
attaching the match to the request context, so the default error handler
finds no MuxMatch and writes 404 with no Allow header in both cases — the
method-not-allowed outcome is not distinguishable from not-found and no
Allow header carrying the method set is produced. -/
theorem c4_method_not_allowed_eval :
    serveHTTP tUsers MethodPost ("/users".toList) = HttpOutcome.status 404 none ∧
    serveHTTP tUsers MethodGet ("/zzz".toList) = HttpOutcome.status 404 none :=
  ⟨by decide, by decide⟩

/-- C7: evaluation of the code at the claim's example.  With
/users/:user/images/*img registered, looking up /users/1/images/123/456
yields no match at all (the wildcard consumes exactly one segment and the
walk then fails on 456), so the claimed captures user="1", img="123/456" do
not exist; the single-remaining-segment path /users/1/images/123 does match
with one segment per placeholder. -/
theorem c7_param_capture_eval :
    lookup tImg ("/users/1/images/123/456".toList) = none ∧
    (lookup tImg ("/users/1/images/123".toList)).map (fun r => (r.1.params, r.2)) =
      some (["user".toList, "img".toList], ["1".toList, "123".toList]) :=
  ⟨by decide, by decide⟩

/-- C9: evaluation of the code at a crashing input.  With /users/:id
registered, the request path /users/* matches via the exact-key branch (the
walk finds the wildcard child under the literal segment text "*"), so no
value is captured: the match carries parameter name "id" but an empty
captured-values sequence, and Param "id" scans the names, finds index 0, and
reads past the end of the values (none here; an index-out-of-range panic in
Go). -/
theorem c9_param_bounds_eval :
    lookup tParam ("/users/*".toList) = some (eParam, []) ∧
    findParamIdx eParam.params ("id".toList) = some 0 ∧
    Param eParam [] ("id".toList) = none :=
  ⟨by decide, by decide, by decide⟩

/-- C8: counterexample.  Registering GET /users/:id and then POST
/users/:name — two different pattern strings — succeeds, and both end at the
same tree node: the POST handler is bound on the entry created by the first
registration, so a POST lookup of /users/7 reports pattern "/users/:id" and
parameter name "id" even though the handler was registered under
"/users/:name"; the two registrations share one RouteEntry. -/
theorem c8_counterexample :
    isOk (HandleMethods emptyNode [MethodGet] ("/users/:id".toList) (some 1)) = true ∧
    isOk (HandleMethods (regOr emptyNode [MethodGet] "/users/:id" 1) [MethodPost]
      ("/users/:name".toList) (some 2)) = true ∧
    (lookup tShare ("/users/7".toList)).map
      (fun r => (r.1.pattern, r.1.params, mapGet r.1.handlers MethodPost)) =
      some ("/users/:id".toList, ["id".toList], some 2) :=
  ⟨by decide, by decide, by decide⟩

/-- C5: for a request whose path matches, the dispatcher resolves the handler
in a fixed order: the handler bound to the exact request method first; if
absent and the method is HEAD, the handler bound to GET; if still absent and
the method is OPTIONS, a 204 no-content outcome carrying the entry's method
set as the Allow value is produced instead of any error outcome. -/
theorem c5_handler_resolution :
    ∀ (mux : Node) (method path : Str) (e : MuxEntry) (values : List Str),
      lookup mux path = some (e, values) →
      ((∀ h, mapGet e.handlers method = some h →
          serveHTTP mux method path = HttpOutcome.handler h e values) ∧
        (mapGet e.handlers method = none → method = MethodHead →
          ∀ h, mapGet e.handlers MethodGet = some h →
            serveHTTP mux method path = HttpOutcome.handler h e values) ∧
        (mapGet e.handlers method = none → method = MethodOptions →
          serveHTTP mux method path =
            HttpOutcome.status 204 (some (renderMethods e.methods)))) := by
  intro mux method path e values hl
  refine ⟨?_, ?_, ?_⟩
  · intro h hh
    simp [serveHTTP, hl, hh]
  · intro hnone hhead h hget
    subst hhead
    simp [serveHTTP, hl, hnone, hget]
  · intro hnone hopt
    subst hopt
    simp only [serveHTTP, hl, hnone]
    rw [if_neg (by decide : ¬ MethodOptions = MethodHead)]
    simp

theorem c5_handler_resolution_witness :
    serveHTTP tUsers MethodHead ("/users".toList) = HttpOutcome.handler 7 eUsers [] :=
  (c5_handler_resolution tUsers MethodHead ("/users".toList) eUsers [] (by decide)).2.1
    (by decide) rfl 7 (by decide)

/-- C10: path normalization does nothing beyond the two documented fixes:
cleanPath maps the empty path to "/", prepends a slash to a path lacking one,
and returns any path already starting with a slash unchanged; repeated
slashes, dot and dot-dot segments, and trailing slashes are preserved and
treated by the segment walk as ordinary (possibly empty) literal segments,
as the /../x// example shows. -/
theorem c10_cleanpath :
    cleanPath [] = ['/'] ∧
    (∀ (c : Char) (p : Str), c ≠ '/' → cleanPath (c :: p) = '/' :: c :: p) ∧
    (∀ p : Str, cleanPath ('/' :: p) = '/' :: p) ∧
    segsOf ("/a//b/".toList) = ["a".toList, ([] : Str), "b".toList, ([] : Str)] ∧
    (lookup (regOr emptyNode [MethodGet] "/../x//" 1) ("/../x//".toList)).map
      (fun r => (r.1.pattern, r.2)) = some ("/../x//".toList, []) := by
  refine ⟨rfl, ?_, ?_, by decide, by decide⟩
  · intro c p hc
    simp [cleanPath, hc]
  · intro p
    simp [cleanPath]

theorem c10_cleanpath_witness :
    cleanPath ("a".toList) = "/a".toList :=
  c10_cleanpath.2.1 'a' [] (by decide)

theorem mapGet_mapSet {α : Type} (l : List (Str × α)) (k : Str) (v : α) (q : Str) :
    mapGet (mapSet l k v) q = if k = q then some v else mapGet l q := by
  induction l with
  | nil => simp [mapGet, mapSet]
  | cons kv rest ih =>
    obtain ⟨kk, vv⟩ := kv
    by_cases h1 : kk = k
    · subst h1
      by_cases h2 : kk = q
      · subst h2
        simp [mapGet, mapSet]
      · simp [mapGet, mapSet, h2]
    · by_cases h2 : kk = q
      · subst h2
        have h3 : ¬ k = kk := fun hx => h1 hx.symm
        simp [mapGet, mapSet, h1, h3]
      · simp [mapGet, mapSet, h1, h2, ih]

theorem setHandlers_ok_iff : ∀ (methods : List Str) (e : MuxEntry) (handler : Handler),
    (isOk (setHandlers e methods handler) = true ↔
      (methods.Nodup ∧ ∀ m ∈ methods, mapGet e.handlers m = none)) := by
  intro methods
  induction methods with
  | nil =>
    intro e handler
    simp [setHandlers, isOk]
  | cons m rest ih =>
    intro e handler
    cases hm : mapGet e.handlers m with
    | some hv =>
      simp only [setHandlers, setHandler, hm, isOk]
      constructor
      · intro hfalse
        exact absurd hfalse (by simp)
      · intro hr
        have := hr.2 m (by simp)
        rw [hm] at this
        exact absurd this (by simp)
    | none =>
      simp only [setHandlers, setHandler, hm]
      rw [ih]
      constructor
      · intro hr
        refine ⟨List.nodup_cons.mpr ⟨?_, hr.1⟩, ?_⟩
        · intro hmem
          have := hr.2 m hmem
          rw [mapGet_mapSet] at this
          simp at this
        · intro x hx
          rcases List.mem_cons.mp hx with hx1 | hx2
          · rw [hx1]; exact hm
          · have := hr.2 x hx2
            rw [mapGet_mapSet] at this
            by_cases hq : m = x
            · simp [hq] at this
            · rw [if_neg hq] at this
              exact this
      · intro hr
        obtain ⟨hnd, hall⟩ := hr
        have hmn : m ∉ rest := (List.nodup_cons.mp hnd).1
        refine ⟨(List.nodup_cons.mp hnd).2, ?_⟩
        intro x hx
        rw [mapGet_mapSet]
        have hxm : ¬ m = x := fun he => hmn (he ▸ hx)
        rw [if_neg hxm]
        exact hall x (List.mem_cons_of_mem m hx)

theorem keysOf_nil : keysOf [] = [] := rfl

theorem keysOf_cons (c : Char) (cs : Str) :
    keysOf (c :: cs) =
      keyOf (shiftPath (c :: cs)).1 :: keysOf (shiftPath (c :: cs)).2 := by
  simp [keysOf, segsOf_cons]

theorem pathHandlers_fresh (p : Str) : pathHandlers (Node.mk [] none) p = [] := by
  unfold pathHandlers
  cases hks : keysOf p with
  | nil => simp [nodeAt, Node.entry]
  | cons k ks => simp [nodeAt, mapGet, Node.children]

theorem pathHandlers_cons (n : Node) (c : Char) (cs : Str) :
    pathHandlers n (c :: cs) =
      (match mapGet n.children (keyOf (shiftPath (c :: cs)).1) with
        | some ch => pathHandlers ch (shiftPath (c :: cs)).2
        | none => []) := by
  unfold pathHandlers
  rw [keysOf_cons]
  simp only [nodeAt]
  cases mapGet n.children (keyOf (shiftPath (c :: cs)).1) <;> rfl

theorem registerLoop_nil_iff (k : Nat) (n : Node) (params : List Str) (pattern : Str)
    (methods : List Str) (handler : Handler) :
    (isOk (registerLoop k n [] params pattern methods handler) = true ↔
      (methods.Nodup ∧ ∀ m ∈ methods, mapGet (pathHandlers n []) m = none)) := by
  cases hn : n.entry with
  | some e =>
    have h1 : isOk (registerLoop k n [] params pattern methods handler) =
        isOk (setHandlers e methods handler) := by
      cases k <;> simp only [registerLoop, hn] <;>
        (cases hs : setHandlers e methods handler <;> simp [hs, isOk])
    have h2 : pathHandlers n [] = e.handlers := by
      simp [pathHandlers, keysOf, segsOf, segsLoop, nodeAt, hn]
    rw [h1, h2, setHandlers_ok_iff]
  | none =>
    have h1 : isOk (registerLoop k n [] params pattern methods handler) =
        isOk (setHandlers
          { pattern := pattern, params := params, handlers := [],
            methods := Methods [MethodOptions] } methods handler) := by
      cases k <;> simp only [registerLoop, hn] <;>
        (cases hs : setHandlers _ methods handler <;> simp [hs, isOk])
    have h2 : pathHandlers n [] = [] := by
      simp [pathHandlers, keysOf, segsOf, segsLoop, nodeAt, hn]
    rw [h1, h2, setHandlers_ok_iff]

theorem registerLoop_ok_iff : ∀ (k : Nat) (p : Str), p.length ≤ k →
    ∀ (n : Node) (params : List Str) (pattern : Str) (methods : List Str) (handler : Handler),
    (isOk (registerLoop k n p params pattern methods handler) = true ↔
      (methods.Nodup ∧ ∀ m ∈ methods, mapGet (pathHandlers n p) m = none)) := by
  intro k
  induction k with
  | zero =>
    intro p hk n params pattern methods handler
    have hp : p = [] := List.length_eq_zero.mp (Nat.le_zero.mp hk)
    subst hp
    exact registerLoop_nil_iff 0 n params pattern methods handler
  | succ k ih =>
    intro p hk n params pattern methods handler
    cases p with
    | nil => exact registerLoop_nil_iff (k + 1) n params pattern methods handler
    | cons c cs =>
      have hlen : (shiftPath (c :: cs)).2.length ≤ k := by
        have := shiftPath_snd_le c cs
        simp only [List.length_cons] at hk
        omega
      simp only [registerLoop]
      rw [pathHandlers_cons]
      cases hch : mapGet n.children (keyOf (shiftPath (c :: cs)).1) with
      | some ch =>
        simp only [hch]
        have hih := ih (shiftPath (c :: cs)).2 hlen ch
          (if isPlaceholder (shiftPath (c :: cs)).1
            then params ++ [(shiftPath (c :: cs)).1.tail] else params)
          pattern methods handler
        rw [← hih]
        cases hr : registerLoop k ch (shiftPath (c :: cs)).2
            (if isPlaceholder (shiftPath (c :: cs)).1
              then params ++ [(shiftPath (c :: cs)).1.tail] else params)
            pattern methods handler <;> simp [isOk, hr]
      | none =>
        simp only [hch]
        have hih := ih (shiftPath (c :: cs)).2 hlen (Node.mk [] none)
          (if isPlaceholder (shiftPath (c :: cs)).1
            then params ++ [(shiftPath (c :: cs)).1.tail] else params)
          pattern methods handler
        rw [pathHandlers_fresh] at hih
        rw [← hih]
        cases hr : registerLoop k (Node.mk [] none) (shiftPath (c :: cs)).2
            (if isPlaceholder (shiftPath (c :: cs)).1
              then params ++ [(shiftPath (c :: cs)).1.tail] else params)
            pattern methods handler <;> simp [isOk, hr]

/-- C6: registration fails as a panic (modelled as an error result) exactly
when the method set is empty, the pattern is the empty string, the handler is
absent, or one of the given methods already has a handler bound on the
pattern's entry — a duplicate inside the given method list panics on its
second occurrence for the same reason; for all other inputs registration
succeeds. -/
theorem c6_registration_panics :
    ∀ (t : Node) (methods : List Str) (pattern : Str) (handler : Option Handler),
      (isOk (HandleMethods t methods pattern handler) = true ↔
        (methods ≠ [] ∧ pattern ≠ [] ∧ handler ≠ none ∧ methods.Nodup ∧
          ∀ m ∈ methods, mapGet (pathHandlers t (cleanPath pattern)) m = none)) := by
  intro t methods pattern handler
  by_cases hm : methods.length = 0
  · have hmn : methods = [] := List.length_eq_zero.mp hm
    subst hmn
    simp [HandleMethods, isOk]
  · by_cases hp : pattern = []
    · subst hp
      simp [HandleMethods, hm, isOk]
    · cases handler with
      | none => simp [HandleMethods, hm, hp, isOk]
      | some h =>
        simp only [HandleMethods, if_neg hm, if_neg hp]
        rw [registerLoop_ok_iff (cleanPath pattern).length (cleanPath pattern) (le_refl _)]
        have hmn : methods ≠ [] := fun he => hm (by simp [he])
        simp [hmn, hp]

theorem c6_registration_panics_witness :
    isOk (HandleMethods emptyNode [MethodGet] ("/users".toList) (some 7)) = true :=
  (c6_registration_panics emptyNode [MethodGet] ("/users".toList) (some 7)).mpr (by decide)

theorem entryAt_nil (n : Node) : entryAt n [] = n.entry := rfl

theorem entryAt_cons (n : Node) (k : Str) (ks : List Str) :
    entryAt n (k :: ks) =
      (match mapGet n.children k with
        | some c => entryAt c ks
        | none => none) := by
  unfold entryAt
  simp only [nodeAt]
  cases mapGet n.children k <;> rfl

theorem entryAt_fresh (ks : List Str) : entryAt (Node.mk [] none) ks = none := by
  cases ks with
  | nil => rfl
  | cons k ks2 => simp [entryAt, nodeAt, mapGet, Node.children]

theorem collectParams_nil : collectParams [] = [] := rfl

theorem collectParams_cons (c : Char) (cs : Str) :
    collectParams (c :: cs) =
      (if isPlaceholder (shiftPath (c :: cs)).1
        then (shiftPath (c :: cs)).1.tail :: collectParams (shiftPath (c :: cs)).2
        else collectParams (shiftPath (c :: cs)).2) := by
  simp only [collectParams, segsOf_cons, List.filterMap_cons]
  cases hph : isPlaceholder (shiftPath (c :: cs)).1 <;> simp [hph]

theorem setHandler_pp (e : MuxEntry) (m : Str) (h : Handler) (e2 : MuxEntry)
    (hx : setHandler e m h = Except.ok e2) :
    e2.pattern = e.pattern ∧ e2.params = e.params := by
  unfold setHandler at hx
  cases hm : mapGet e.handlers m with
  | some hv => rw [hm] at hx; exact absurd hx (by simp)
  | none =>
    rw [hm] at hx
    simp only [Except.ok.injEq] at hx
    subst hx
    exact ⟨rfl, rfl⟩

theorem setHandlers_pp : ∀ (methods : List Str) (e : MuxEntry) (h : Handler) (e2 : MuxEntry),
    setHandlers e methods h = Except.ok e2 →
    e2.pattern = e.pattern ∧ e2.params = e.params := by
  intro methods
  induction methods with
  | nil =>
    intro e h e2 hx
    simp only [setHandlers, Except.ok.injEq] at hx
    subst hx
    exact ⟨rfl, rfl⟩
  | cons m rest ih =>
    intro e h e2 hx
    simp only [setHandlers] at hx
    cases hs : setHandler e m h with
    | error msg => rw [hs] at hx; exact absurd hx (by simp)
    | ok emid =>
      rw [hs] at hx
      have h1 := ih emid h e2 hx
      have h2 := setHandler_pp e m h emid hs
      exact ⟨h1.1.trans h2.1, h1.2.trans h2.2⟩

theorem registerLoop_entries_nil : ∀ (k : Nat) (n : Node) (params : List Str) (pattern : Str)
    (methods : List Str) (handler : Handler) (n2 : Node),
    registerLoop k n [] params pattern methods handler = Except.ok n2 →
    ((∀ ks, ks ≠ ([] : List Str) → entryAt n2 ks = entryAt n ks) ∧
      (entryAt n2 []).map (fun e => (e.pattern, e.params)) =
        some (match entryAt n [] with
          | some old => (old.pattern, old.params)
          | none => (pattern, params))) := by
  intro k n params pattern methods handler n2
  cases hn : n.entry with
  | some e =>
    cases k
    all_goals
      simp only [registerLoop, hn]
      cases hs : setHandlers e methods handler with
      | error msg => intro hx; exact absurd hx (by simp)
      | ok e2 =>
        intro hx
        simp only [Except.ok.injEq] at hx
        subst hx
        constructor
        · intro ks hks
          cases ks with
          | nil => exact absurd rfl hks
          | cons k1 ks2 =>
            rw [entryAt_cons, entryAt_cons]
            simp only [Node.children]
        · have hpp := setHandlers_pp methods e handler e2 hs
          rw [entryAt_nil, entryAt_nil, hn]
          simp [Node.entry, hpp.1, hpp.2]
  | none =>
    cases k
    all_goals
      simp only [registerLoop, hn]
      cases hs : setHandlers
          { pattern := pattern, params := params, handlers := [],
            methods := Methods [MethodOptions] } methods handler with
      | error msg => intro hx; exact absurd hx (by simp)
      | ok e2 =>
        intro hx
        simp only [Except.ok.injEq] at hx
        subst hx
        constructor
        · intro ks hks
          cases ks with
          | nil => exact absurd rfl hks
          | cons k1 ks2 =>
            rw [entryAt_cons, entryAt_cons]
            simp only [Node.children]
        · have hpp := setHandlers_pp methods _ handler e2 hs
          rw [entryAt_nil, entryAt_nil, hn]
          simp [Node.entry, hpp.1, hpp.2]

theorem entryAt_cons_some (n : Node) (k : Str) (ks : List Str) (c : Node)
    (h : mapGet n.children k = some c) : entryAt n (k :: ks) = entryAt c ks := by
  rw [entryAt_cons, h]

theorem entryAt_cons_none (n : Node) (k : Str) (ks : List Str)
    (h : mapGet n.children k = none) : entryAt n (k :: ks) = none := by
  rw [entryAt_cons, h]

theorem registerLoop_entries : ∀ (k : Nat) (p : Str), p.length ≤ k →
    ∀ (n : Node) (params : List Str) (pattern : Str) (methods : List Str)
      (handler : Handler) (n2 : Node),
    registerLoop k n p params pattern methods handler = Except.ok n2 →
    ((∀ ks, ks ≠ keysOf p → entryAt n2 ks = entryAt n ks) ∧
      (entryAt n2 (keysOf p)).map (fun e => (e.pattern, e.params)) =
        some (match entryAt n (keysOf p) with
          | some old => (old.pattern, old.params)
          | none => (pattern, params ++ collectParams p))) := by
  intro k
  induction k with
  | zero =>
    intro p hk n params pattern methods handler n2 hx
    have hp : p = [] := List.length_eq_zero.mp (Nat.le_zero.mp hk)
    subst hp
    have h := registerLoop_entries_nil 0 n params pattern methods handler n2 hx
    rw [keysOf_nil, collectParams_nil, List.append_nil]
    exact h
  | succ k ih =>
    intro p hk n params pattern methods handler n2 hx
    cases p with
    | nil =>
      have h := registerLoop_entries_nil (k + 1) n params pattern methods handler n2 hx
      rw [keysOf_nil, collectParams_nil, List.append_nil]
      exact h
    | cons c cs =>
      have hlen : (shiftPath (c :: cs)).2.length ≤ k := by
        have := shiftPath_snd_le c cs
        simp only [List.length_cons] at hk
        omega
      simp only [registerLoop] at hx
      cases hch : mapGet n.children (keyOf (shiftPath (c :: cs)).1) with
      | some ch =>
        rw [hch] at hx
        cases hr : registerLoop k ch (shiftPath (c :: cs)).2
            (if isPlaceholder (shiftPath (c :: cs)).1
              then params ++ [(shiftPath (c :: cs)).1.tail] else params)
            pattern methods handler with
        | error msg => rw [hr] at hx; exact absurd hx (by simp)
        | ok next2 =>
          rw [hr] at hx
          simp only [Except.ok.injEq] at hx
          subst hx
          obtain ⟨ihA, ihB⟩ := ih _ hlen ch _ pattern methods handler next2 hr
          have hgSelf : mapGet (Node.mk (mapSet n.children (keyOf (shiftPath (c :: cs)).1) next2)
              n.entry).children (keyOf (shiftPath (c :: cs)).1) = some next2 := by
            simp only [Node.children]
            rw [mapGet_mapSet, if_pos rfl]
          constructor
          · intro ks hks
            rw [keysOf_cons] at hks
            cases ks with
            | nil =>
              rw [entryAt_nil, entryAt_nil]
              simp only [Node.entry]
            | cons k1 ks2 =>
              by_cases hk1 : keyOf (shiftPath (c :: cs)).1 = k1
              · have hg1 : mapGet (Node.mk (mapSet n.children (keyOf (shiftPath (c :: cs)).1) next2)
                    n.entry).children k1 = some next2 := by
                  rw [← hk1]; exact hgSelf
                have hg2 : mapGet n.children k1 = some ch := by
                  rw [← hk1]; exact hch
                rw [entryAt_cons_some _ _ _ _ hg1, entryAt_cons_some _ _ _ _ hg2]
                have hne : ks2 ≠ keysOf (shiftPath (c :: cs)).2 := by
                  intro he
                  exact hks (by rw [← hk1, he])
                exact ihA ks2 hne
              · have hg1 : mapGet (Node.mk (mapSet n.children (keyOf (shiftPath (c :: cs)).1) next2)
                    n.entry).children k1 = mapGet n.children k1 := by
                  simp only [Node.children]
                  rw [mapGet_mapSet, if_neg hk1]
                rw [entryAt_cons, entryAt_cons, hg1]
          · rw [keysOf_cons]
            rw [entryAt_cons_some _ _ _ _ hgSelf, entryAt_cons_some _ _ _ _ hch]
            rw [ihB]
            cases hold : entryAt ch (keysOf (shiftPath (c :: cs)).2) with
            | some old => simp
            | none =>
              simp only [Option.some.injEq]
              rw [collectParams_cons]
              cases hph : isPlaceholder (shiftPath (c :: cs)).1 <;> simp [hph]
      | none =>
        rw [hch] at hx
        cases hr : registerLoop k (Node.mk [] none) (shiftPath (c :: cs)).2
            (if isPlaceholder (shiftPath (c :: cs)).1
              then params ++ [(shiftPath (c :: cs)).1.tail] else params)
            pattern methods handler with
        | error msg => rw [hr] at hx; exact absurd hx (by simp)
        | ok next2 =>
          rw [hr] at hx
          simp only [Except.ok.injEq] at hx
          subst hx
          obtain ⟨ihA, ihB⟩ := ih _ hlen (Node.mk [] none) _ pattern methods handler next2 hr
          have hgSelf : mapGet (Node.mk (mapSet n.children (keyOf (shiftPath (c :: cs)).1) next2)
              n.entry).children (keyOf (shiftPath (c :: cs)).1) = some next2 := by
            simp only [Node.children]
            rw [mapGet_mapSet, if_pos rfl]
          constructor
          · intro ks hks
            rw [keysOf_cons] at hks
            cases ks with
            | nil =>
              rw [entryAt_nil, entryAt_nil]
              simp only [Node.entry]
            | cons k1 ks2 =>
              by_cases hk1 : keyOf (shiftPath (c :: cs)).1 = k1
              · have hg1 : mapGet (Node.mk (mapSet n.children (keyOf (shiftPath (c :: cs)).1) next2)
                    n.entry).children k1 = some next2 := by
                  rw [← hk1]; exact hgSelf
                have hg2 : mapGet n.children k1 = none := by
                  rw [← hk1]; exact hch
                rw [entryAt_cons_some _ _ _ _ hg1, entryAt_cons_none _ _ _ hg2]
                have hne : ks2 ≠ keysOf (shiftPath (c :: cs)).2 := by
                  intro he
                  exact hks (by rw [← hk1, he])
                rw [ihA ks2 hne, entryAt_fresh]
              · have hg1 : mapGet (Node.mk (mapSet n.children (keyOf (shiftPath (c :: cs)).1) next2)
                    n.entry).children k1 = mapGet n.children k1 := by
                  simp only [Node.children]
                  rw [mapGet_mapSet, if_neg hk1]
                rw [entryAt_cons, entryAt_cons, hg1]
          · rw [keysOf_cons]
            rw [entryAt_cons_some _ _ _ _ hgSelf, entryAt_cons_none _ _ _ hch]
            rw [ihB, entryAt_fresh]
            simp only [Option.some.injEq]
            rw [collectParams_cons]
            cases hph : isPlaceholder (shiftPath (c :: cs)).1 <;> simp [hph]

/-- C8 (amended): exactly one RouteEntry exists per distinct normalized
segment-key sequence, not per pattern string: a successful registration
leaves the entry at every other key sequence untouched, and the entry at the
pattern's own key sequence carries the pattern text and placeholder names of
the first registration that created it (the new pattern's text and names are
used only when no entry existed there yet), so patterns that collapse to the
same key sequence share one entry while patterns reaching different terminal
nodes never share one. -/
theorem c8_amended_entry_identity :
    ∀ (t : Node) (methods : List Str) (pattern : Str) (h : Handler) (t2 : Node),
      HandleMethods t methods pattern (some h) = Except.ok t2 →
      ((∀ ks, ks ≠ keysOf (cleanPath pattern) → entryAt t2 ks = entryAt t ks) ∧
        (entryAt t2 (keysOf (cleanPath pattern))).map (fun e => (e.pattern, e.params)) =
          some (match entryAt t (keysOf (cleanPath pattern)) with
            | some old => (old.pattern, old.params)
            | none => (pattern, collectParams (cleanPath pattern)))) := by
  intro t methods pattern h t2 hx
  simp only [HandleMethods] at hx
  by_cases hm : methods.length = 0
  · rw [if_pos hm] at hx; exact absurd hx (by simp)
  · rw [if_neg hm] at hx
    by_cases hp : pattern = []
    · rw [if_pos hp] at hx; exact absurd hx (by simp)
    · rw [if_neg hp] at hx
      have h2 := registerLoop_entries (cleanPath pattern).length (cleanPath pattern)
        (le_refl _) t [] pattern methods h t2 hx
      simpa using h2

theorem c8_amended_entry_identity_witness :
    (entryAt (regOr emptyNode [MethodGet] "/users/:id" 1)
        (keysOf (cleanPath ("/users/:id".toList)))).map (fun e => (e.pattern, e.params)) =
      some ("/users/:id".toList, ["id".toList]) := by
  have h := c8_amended_entry_identity emptyNode [MethodGet] ("/users/:id".toList) 1
    (regOr emptyNode [MethodGet] "/users/:id" 1) rfl
  rw [h.2]
  decide
